import Mathlib

/-!
Shallow embedding of `src/compdb/compdb.cc` (the compile-database
generator).  Strings are modelled as `List Char`; the JSON values
produced by the graph query are modelled by the inductive `Json`,
with field access / iteration functions mirroring the semantics of
the nlohmann json library calls used by the source (const and
non-const `operator[]`, `contains`, `get<string>`, range-for).
A run that throws an exception or hits an assertion/out-of-range
access is modelled as `none` (the process aborts before the
artifact is written).
-/

/-- JSON value model: the shapes the graph document can take. Objects are
ordered association lists (mirroring the iteration order of the parsed map). -/
inductive Json where
  | null : Json
  | bool : Bool → Json
  | num : Int → Json
  | str : List Char → Json
  | arr : List Json → Json
  | obj : List (List Char × Json) → Json

/-- First-match association-list lookup, mirroring `map::find` on the
parsed object (parsed maps have unique keys). -/
def lookupField : List (List Char × Json) → List Char → Option Json
  | [], _ => none
  | (k, v) :: rest, key => if k = key then some v else lookupField rest key

/-- Model of `json::contains(key)`: false on non-objects, otherwise key
membership. -/
def objContains (j : Json) (key : List Char) : Bool :=
  match j with
  | Json.obj fs => (lookupField fs key).isSome
  | _ => false

/-- Model of const `operator[](key)`: throws on non-objects, and the
missing-key case is an assertion failure / end-iterator dereference; both
abort the run, modelled as `none`. -/
def getFieldConst : Json → List Char → Option Json
  | Json.obj fs, key => lookupField fs key
  | _, _ => none

/-- Model of non-const `operator[](key)` (used only as `graph["packages"]`):
on an object a missing key yields null; on null the value becomes an object
and the result is null; on any other type it throws (modelled `none`). -/
def getFieldMut : Json → List Char → Option Json
  | Json.obj fs, key =>
    some (match lookupField fs key with
          | some v => v
          | none => Json.null)
  | Json.null, _ => some Json.null
  | _, _ => none

/-- Model of const array `operator[](0)` followed by nothing else: `none`
models both the type error on a non-array and the out-of-range access on an
empty array. -/
def getIdx0 : Json → Option Json
  | Json.arr (x :: _) => some x
  | _ => none

/-- Model of `get<string>()` / the implicit json-to-string conversion:
throws (modelled `none`) unless the value is a string. -/
def getString : Json → Option (List Char)
  | Json.str s => some s
  | _ => none

/-- Range-for iteration over a json value: arrays iterate their elements,
null iterates nothing, objects iterate their values, any other primitive
iterates exactly itself once. -/
def jsonElems : Json → List Json
  | Json.null => []
  | Json.arr xs => xs
  | Json.obj fs => fs.map (fun kv => kv.2)
  | v => [v]

/-- Compiler-tool placeholder token `$TOOLS_CC`. -/
def toolsTok : List Char := "$TOOLS_CC".toList

/-- All-sources placeholder token `${SRCS_SRCS}`. -/
def srcsTok : List Char := "${SRCS_SRCS}".toList

/-- Sequential-step separator token. -/
def sepTok : List Char := " && ".toList

/-- Key strings used by the pipeline. -/
def keyPackages : List Char := "packages".toList

def keyTargets : List Char := "targets".toList

def keyCommand : List Char := "command".toList

def keySrcs : List Char := "srcs".toList

def keyTools : List Char := "tools".toList

def keyCc : List Char := "cc".toList

/-- Embedding of `replace(in, before, after)` from compdb.cc: replace the
first occurrence of `before` (found at the smallest index, as by
`string::find`) by `after`; return the input unchanged when absent. -/
def replace (inp before after : List Char) : List Char :=
  if before.isPrefixOf inp then after ++ inp.drop before.length
  else
    match inp with
    | [] => []
    | c :: rest => c :: replace rest before after

/-- Embedding of `string::find(pat)`: index of the first occurrence,
`none` when absent. -/
def findSub : List Char → List Char → Option Nat
  | s, pat =>
    if pat.isPrefixOf s then some 0
    else
      match s with
      | [] => none
      | _ :: rest => (findSub rest pat).map (fun i => i + 1)

/-- Does `pat` occur in `s` as a contiguous substring? -/
def containsSub (s pat : List Char) : Bool :=
  if pat.isPrefixOf s then true
  else
    match s with
    | [] => false
    | _ :: rest => containsSub rest pat

/-- Occurrence of `pat` in `s` starting at index `j`. -/
def occursAt (s pat : List Char) (j : Nat) : Bool :=
  pat.isPrefixOf (s.drop j)

/-- Embedding of `cmd.resize(cmd.find_last_not_of(" ") + 1)`: remove all
trailing space characters (spaces only; newlines are kept). -/
def rtrimSpaces (s : List Char) : List Char :=
  (s.reverse.dropWhile (fun c => c == ' ')).reverse

/-- Embedding of lines 46-50 of compdb.cc: when the command contains the
step separator, keep the part before its first occurrence and strip
trailing spaces; otherwise the command is left untouched. -/
def truncateCmd (cmd : List Char) : List Char :=
  match findSub cmd sepTok with
  | some idx => rtrimSpaces (cmd.take idx)
  | none => cmd

/-- Per-source command normalization as performed by lines 46-54 of
compdb.cc: truncate at the separator, then substitute first occurrences of
the sources placeholder (by the bare source string) and of the compiler
placeholder (by the tool path), in that order. -/
def normalizeCmd (cmd tool src : List Char) : List Char :=
  replace (replace (truncateCmd cmd) srcsTok src) toolsTok tool

/-- One entry of the compile database. -/
structure Entry where
  directory : List Char
  command : List Char
  file : List Char
deriving DecidableEq

/-- The generated-output directory, `dir + "/plz-out/gen"`. -/
def genDirOf (dir : List Char) : List Char :=
  dir ++ "/plz-out/gen".toList

/-- Resolution of `target["tools"]["cc"][0].get<string>()`; `none` models
the abort when any step throws or is out of range. -/
def getTool (target : Json) : Option (List Char) := do
  let tools ← getFieldConst target keyTools
  let cc ← getFieldConst tools keyCc
  let first ← getIdx0 cc
  getString first

/-- The guard of line 42: `target.contains("command") &&
target.contains("srcs") && target["srcs"].contains("srcs")`. -/
def targetRelevant (target : Json) : Bool :=
  objContains target keyCommand && objContains target keySrcs &&
    (match getFieldConst target keySrcs with
     | some sv => objContains sv keySrcs
     | none => false)

/-- Processing of one source inside the inner loop (lines 51-60): convert
the source to a string, resolve the tool, substitute both placeholders into
the (already truncated) command and build the entry. -/
def processSrc (dir trunc : List Char) (target : Json) (src : Json) : Option Entry :=
  match getString src with
  | none => none
  | some s =>
    match getTool target with
    | none => none
    | some tool =>
      some { directory := genDirOf dir,
             command := replace (replace trunc srcsTok s) toolsTok tool,
             file := dir ++ '/' :: s }

/-- The inner source loop, threading the output array being built by
`out.emplace_back`. -/
def emitSrcs (dir trunc : List Char) (target : Json) : List Json → List Entry → Option (List Entry)
  | [], out => some out
  | s :: rest, out =>
    match processSrc dir trunc target s with
    | none => none
    | some e => emitSrcs dir trunc target rest (out ++ [e])

/-- Processing of one target (lines 42-61): guard, extract the command
string, check the compiler-placeholder prefix, truncate once, then loop
over the sources. -/
def emitTarget (dir : List Char) (target : Json) (out : List Entry) : Option (List Entry) :=
  if targetRelevant target then
    match (getFieldConst target keyCommand).bind getString with
    | none => none
    | some cmd =>
      if toolsTok.isPrefixOf cmd then
        match (getFieldConst target keySrcs).bind (fun sv => getFieldConst sv keySrcs) with
        | none => none
        | some sv => emitSrcs dir (truncateCmd cmd) target (jsonElems sv) out
      else some out
  else some out

/-- The target loop of one package. -/
def emitTargets (dir : List Char) : List Json → List Entry → Option (List Entry)
  | [], out => some out
  | t :: rest, out =>
    match emitTarget dir t out with
    | none => none
    | some out2 => emitTargets dir rest out2

/-- Processing of one package: const access to its `targets` field, then
iterate. -/
def emitPkg (dir : List Char) (pkg : Json) (out : List Entry) : Option (List Entry) :=
  match getFieldConst pkg keyTargets with
  | none => none
  | some ts => emitTargets dir (jsonElems ts) out

/-- The package loop. -/
def emitPkgs (dir : List Char) : List Json → List Entry → Option (List Entry)
  | [], out => some out
  | p :: rest, out =>
    match emitPkg dir p out with
    | none => none
    | some out2 => emitPkgs dir rest out2

/-- The whole pipeline of `main` (lines 21-65): `dir` is the repository
root (the getcwd result), `doc` the parse result of the graph query
(`none` when the document is malformed and `json::parse` throws).  The
result is the ordered entry sequence serialized into the artifact, or
`none` when the run aborts before writing. -/
def runPipeline (dir : List Char) (doc : Option Json) : Option (List Entry) :=
  match doc with
  | none => none
  | some g =>
    match getFieldMut g keyPackages with
    | none => none
    | some pkgs => emitPkgs dir (jsonElems pkgs) []

/-- JSON form of one emitted entry (object keys in the map order nlohmann
serializes them in). -/
def entryJson (e : Entry) : Json :=
  Json.obj [("command".toList, Json.str e.command),
            ("directory".toList, Json.str e.directory),
            ("file".toList, Json.str e.file)]

/-- The artifact value written to `compile_commands.json` (its byte
serialization is a function of this value). -/
def artifact (dir : List Char) (doc : Option Json) : Option Json :=
  (runPipeline dir doc).map (fun es => Json.arr (es.map entryJson))

/-- Right-trim of trailing spaces and newlines, as the specification's
normalization step 2 words it (spec text, for comparison with the code's
`rtrimSpaces`). -/
def rtrimSpaceNewline (s : List Char) : List Char :=
  (s.reverse.dropWhile (fun c => c == ' ' || c == '\n')).reverse

/-- Modelled from the spec's truncation law (spec text, for comparison with
the code's `truncateCmd`): truncate at the first separator occurrence when
present, then right-trim trailing spaces and newlines in either branch. -/
def specPreNormalize (cmd : List Char) : List Char :=
  match findSub cmd sepTok with
  | some idx => rtrimSpaceNewline (cmd.take idx)
  | none => rtrimSpaceNewline cmd

/-- Compositional (non-accumulator) form of the source loop: the entries of
one target's sources, in source order. -/
def collectSrcs (dir trunc : List Char) (target : Json) : List Json → Option (List Entry)
  | [] => some []
  | s :: rest => do
    let e ← processSrc dir trunc target s
    let es ← collectSrcs dir trunc target rest
    pure (e :: es)

/-- Ordered concatenation of per-item entry lists, aborting when any item
aborts. -/
def collectAll : List (Option (List Entry)) → Option (List Entry)
  | [] => some []
  | o :: rest => do
    let l ← o
    let ls ← collectAll rest
    pure (l ++ ls)

/-- Compositional form of one target's processing. -/
def targetEntries (dir : List Char) (target : Json) : Option (List Entry) :=
  if targetRelevant target then
    match (getFieldConst target keyCommand).bind getString with
    | none => none
    | some cmd =>
      if toolsTok.isPrefixOf cmd then
        match (getFieldConst target keySrcs).bind (fun sv => getFieldConst sv keySrcs) with
        | none => none
        | some sv => collectSrcs dir (truncateCmd cmd) target (jsonElems sv)
      else some []
  else some []

/-- Compositional form of one package's processing: the concatenation of its
targets' entry lists, in target order. -/
def pkgEntries (dir : List Char) (pkg : Json) : Option (List Entry) :=
  match getFieldConst pkg keyTargets with
  | none => none
  | some ts => collectAll ((jsonElems ts).map (targetEntries dir))

/-- Compositional form of the whole graph's processing: the concatenation of
its packages' entry lists, in package order. -/
def graphEntries (dir : List Char) (g : Json) : Option (List Entry) :=
  match getFieldMut g keyPackages with
  | none => none
  | some pkgs => collectAll ((jsonElems pkgs).map (pkgEntries dir))

/-- A target whose command does not begin with the compiler placeholder
(C6 witness input). -/
def tgtC6 : Json :=
  Json.obj [(keyCommand, Json.str ("ar out.a out.o".toList)),
            (keySrcs, Json.obj [(keySrcs, Json.arr [Json.str ("a.cc".toList)])])]

/-- A compilable-looking target with a non-empty source list whose declared
compiler-role tool list is empty (C8 inputs). -/
def tgtC8 : Json :=
  Json.obj [(keyCommand, Json.str ("$TOOLS_CC -c ${SRCS_SRCS} -o out.o".toList)),
            (keySrcs, Json.obj [(keySrcs, Json.arr [Json.str ("a.cc".toList)])]),
            (keyTools, Json.obj [(keyCc, Json.arr [])])]

/-- A well-formed target processed after `tgtC8` in the same graph. -/
def tgtOk : Json :=
  Json.obj [(keyCommand, Json.str ("$TOOLS_CC -c ${SRCS_SRCS} -o b.o".toList)),
            (keySrcs, Json.obj [(keySrcs, Json.arr [Json.str ("b.cc".toList)])]),
            (keyTools, Json.obj [(keyCc, Json.arr [Json.str ("/cc".toList)])])]

/-- Graph with the empty-tool-list target followed by a well-formed target
(C8 counterexample input). -/
def docC8 : Json :=
  Json.obj [(keyPackages, Json.arr [
    Json.obj [(keyTargets, Json.arr [tgtC8, tgtOk])]])]

/-- Graph whose single target's command repeats the sources placeholder
(C3 counterexample input). -/
def docC3 : Json :=
  Json.obj [(keyPackages, Json.arr [
    Json.obj [(keyTargets, Json.arr [
      Json.obj [
        (keyCommand, Json.str ("$TOOLS_CC ${SRCS_SRCS} ${SRCS_SRCS}".toList)),
        (keySrcs, Json.obj [(keySrcs, Json.arr [Json.str ("a.cc".toList)])]),
        (keyTools, Json.obj [(keyCc, Json.arr [Json.str ("/cc".toList)])])
      ]])]])]

/-- Graph with one ordinary compilable target (C5 counterexample input). -/
def docC5 : Json :=
  Json.obj [(keyPackages, Json.arr [
    Json.obj [(keyTargets, Json.arr [
      Json.obj [
        (keyCommand, Json.str ("$TOOLS_CC -c ${SRCS_SRCS}".toList)),
        (keySrcs, Json.obj [(keySrcs, Json.arr [Json.str ("a.cc".toList)])]),
        (keyTools, Json.obj [(keyCc, Json.arr [Json.str ("/cc".toList)])])
      ]])]])]

/-- Graph whose target's command starts with the placeholder token embedded
in a longer word (C10 input). -/
def docC10 : Json :=
  Json.obj [(keyPackages, Json.arr [
    Json.obj [(keyTargets, Json.arr [
      Json.obj [
        (keyCommand, Json.str ("$TOOLS_CCLD -c ${SRCS_SRCS} -o out.o".toList)),
        (keySrcs, Json.obj [(keySrcs, Json.arr [Json.str ("a.cc".toList)])]),
        (keyTools, Json.obj [(keyCc, Json.arr [Json.str ("/usr/bin/ld".toList)])])
      ]])]])]

/-- The C1 graph document: one package, one target. -/
def docC1 : Json :=
  Json.obj [(keyPackages, Json.arr [
    Json.obj [(keyTargets, Json.arr [
      Json.obj [
        (keyCommand, Json.str ("$TOOLS_CC -c ${SRCS_SRCS} -o out.o && ar out.a out.o".toList)),
        (keySrcs, Json.obj [(keySrcs, Json.arr [Json.str ("a.cc".toList), Json.str ("b.cc".toList)])]),
        (keyTools, Json.obj [(keyCc, Json.arr [Json.str ("/usr/bin/clang++".toList)])])
      ]])]])]

/-- C1: the end-to-end example run over `/repo` emits exactly the two
expected entries, in order, with directory `/repo/plz-out/gen`. -/
theorem C1_end_to_end :
    runPipeline ("/repo".toList) (some docC1) =
      some [{ directory := "/repo/plz-out/gen".toList,
              command := "/usr/bin/clang++ -c a.cc -o out.o".toList,
              file := "/repo/a.cc".toList },
            { directory := "/repo/plz-out/gen".toList,
              command := "/usr/bin/clang++ -c b.cc -o out.o".toList,
              file := "/repo/b.cc".toList }] := by
  decide

/-- Bool-to-Prop bridge for the occurrence predicate. -/
theorem occursAt_false_iff (s pat : List Char) (j : Nat) :
    occursAt s pat j = false ↔ ¬ pat <+: s.drop j := by
  unfold occursAt
  rw [← List.isPrefixOf_iff_prefix, Bool.not_eq_true]

/-- Shifting an occurrence index over a cons cell. -/
theorem occursAt_cons (c : Char) (s pat : List Char) (j : Nat) :
    occursAt (c :: s) pat (j + 1) = occursAt s pat j := rfl

/-- When no occurrence of `pat` starts before `pre.length`, `findSub`
locates the occurrence sitting right after `pre`. -/
theorem findSub_at_first (pat : List Char) :
    ∀ pre post : List Char,
      (∀ j, j < pre.length → occursAt (pre ++ (pat ++ post)) pat j = false) →
      findSub (pre ++ (pat ++ post)) pat = some pre.length := by
  intro pre
  induction pre with
  | nil =>
    intro post _
    rw [findSub.eq_def]
    dsimp only
    simp [List.isPrefixOf_iff_prefix, List.prefix_append]
  | cons c pre' ih =>
    intro post h
    have h0 : ¬ pat <+: (c :: pre' ++ (pat ++ post)) := by
      have := h 0 (Nat.succ_pos _)
      rw [occursAt_false_iff] at this
      simpa using this
    rw [findSub.eq_def]
    dsimp only
    simp only [List.cons_append, List.isPrefixOf_iff_prefix]
    rw [if_neg (by simpa using h0)]
    have hrec := ih post (fun j hj => by
      have := h (j + 1) (Nat.succ_lt_succ hj)
      rwa [List.cons_append, occursAt_cons] at this)
    simp [hrec]

/-- When `pat` occurs nowhere in `s`, `findSub` reports absence. -/
theorem findSub_none (pat : List Char) :
    ∀ s : List Char, (∀ j, occursAt s pat j = false) → findSub s pat = none := by
  intro s
  induction s with
  | nil =>
    intro h
    have h0 := (occursAt_false_iff [] pat 0).mp (h 0)
    rw [findSub.eq_def]
    dsimp only
    rw [if_neg (by simpa using h0)]
  | cons c rest ih =>
    intro h
    have h0 := (occursAt_false_iff (c :: rest) pat 0).mp (h 0)
    rw [findSub.eq_def]
    dsimp only
    rw [if_neg (by simpa using h0)]
    simp [ih (fun j => (occursAt_cons c rest pat j) ▸ h (j + 1))]

/-- `replace` rewrites exactly the occurrence after `pre` when no earlier
occurrence exists. -/
theorem replace_at_first (pat rep : List Char) :
    ∀ pre post : List Char,
      (∀ j, j < pre.length → occursAt (pre ++ (pat ++ post)) pat j = false) →
      replace (pre ++ (pat ++ post)) pat rep = pre ++ (rep ++ post) := by
  intro pre
  induction pre with
  | nil =>
    intro post _
    rw [replace.eq_def]
    rw [if_pos (by rw [List.isPrefixOf_iff_prefix]; exact List.prefix_append pat post)]
    simp [List.drop_left]
  | cons c pre' ih =>
    intro post h
    have h0 : ¬ pat <+: (c :: pre' ++ (pat ++ post)) := by
      have := h 0 (Nat.succ_pos _)
      rw [occursAt_false_iff] at this
      simpa using this
    rw [replace.eq_def]
    rw [if_neg (by simpa [List.isPrefixOf_iff_prefix] using h0)]
    simp only [List.cons_append]
    rw [ih post (fun j hj => by
      have := h (j + 1) (Nat.succ_lt_succ hj)
      rwa [List.cons_append, occursAt_cons] at this)]

/-- `replace` keeps its input untouched when the pattern never occurs. -/
theorem replace_no_occurrence (pat rep : List Char) :
    ∀ s : List Char, (∀ j, occursAt s pat j = false) → replace s pat rep = s := by
  intro s
  induction s with
  | nil =>
    intro h
    have h0 := (occursAt_false_iff [] pat 0).mp (h 0)
    rw [replace.eq_def]
    rw [if_neg (by simpa using h0)]
  | cons c rest ih =>
    intro h
    have h0 := (occursAt_false_iff (c :: rest) pat 0).mp (h 0)
    rw [replace.eq_def]
    rw [if_neg (by simpa using h0)]
    simp [ih (fun j => (occursAt_cons c rest pat j) ▸ h (j + 1))]

/-- The accumulator-threading source loop is the compositional source
collection appended to the accumulator. -/
theorem emitSrcs_eq (dir trunc : List Char) (target : Json) :
    ∀ (srcs : List Json) (out : List Entry),
      emitSrcs dir trunc target srcs out =
        (collectSrcs dir trunc target srcs).map (fun es => out ++ es) := by
  intro srcs
  induction srcs with
  | nil => intro out; simp [emitSrcs, collectSrcs]
  | cons s rest ih =>
    intro out
    rw [emitSrcs, collectSrcs]
    cases hp : processSrc dir trunc target s with
    | none => simp
    | some e =>
      simp only [Option.some_bind]
      rw [ih (out ++ [e])]
      cases hr : collectSrcs dir trunc target rest with
      | none => simp
      | some es => simp

/-- The per-target step with accumulator is the compositional per-target
entry list appended to the accumulator. -/
theorem emitTarget_eq (dir : List Char) (target : Json) (out : List Entry) :
    emitTarget dir target out = (targetEntries dir target).map (fun es => out ++ es) := by
  rw [emitTarget, targetEntries]
  by_cases hrel : targetRelevant target
  · simp only [hrel, if_true]
    cases hc : (getFieldConst target keyCommand).bind getString with
    | none => simp
    | some cmd =>
      by_cases hpre : toolsTok.isPrefixOf cmd
      · simp only [hpre, if_true]
        cases hs : (getFieldConst target keySrcs).bind (fun sv => getFieldConst sv keySrcs) with
        | none => simp
        | some sv => simp [emitSrcs_eq]
      · simp [hpre]
  · simp [hrel]

/-- The target loop with accumulator is the concatenation of the
compositional per-target entry lists. -/
theorem emitTargets_eq (dir : List Char) :
    ∀ (ts : List Json) (out : List Entry),
      emitTargets dir ts out =
        (collectAll (ts.map (targetEntries dir))).map (fun es => out ++ es) := by
  intro ts
  induction ts with
  | nil => intro out; simp [emitTargets, collectAll]
  | cons t rest ih =>
    intro out
    rw [emitTargets, List.map_cons, collectAll, emitTarget_eq]
    cases ht : targetEntries dir t with
    | none => simp
    | some l =>
      rw [Option.map_some']
      dsimp only
      rw [ih (out ++ l)]
      cases hr : collectAll (rest.map (targetEntries dir)) with
      | none => simp
      | some ls => simp

/-- The per-package step with accumulator matches the compositional form. -/
theorem emitPkg_eq (dir : List Char) (pkg : Json) (out : List Entry) :
    emitPkg dir pkg out = (pkgEntries dir pkg).map (fun es => out ++ es) := by
  rw [emitPkg, pkgEntries]
  cases ht : getFieldConst pkg keyTargets with
  | none => simp
  | some ts => simp [emitTargets_eq]

/-- The package loop with accumulator is the concatenation of the
compositional per-package entry lists. -/
theorem emitPkgs_eq (dir : List Char) :
    ∀ (ps : List Json) (out : List Entry),
      emitPkgs dir ps out =
        (collectAll (ps.map (pkgEntries dir))).map (fun es => out ++ es) := by
  intro ps
  induction ps with
  | nil => intro out; simp [emitPkgs, collectAll]
  | cons p rest ih =>
    intro out
    rw [emitPkgs, List.map_cons, collectAll, emitPkg_eq]
    cases hp : pkgEntries dir p with
    | none => simp
    | some l =>
      rw [Option.map_some']
      dsimp only
      rw [ih (out ++ l)]
      cases hr : collectAll (rest.map (pkgEntries dir)) with
      | none => simp
      | some ls => simp

/-- C7: the emitted entry sequence is the in-order concatenation over
packages, over targets within each package, and over sources within each
target — the input graph's order, with no sorting, grouping or
deduplication: the accumulator loop of `main` computes exactly the
compositional `graphEntries` concatenation. -/
theorem C7_entry_order (dir : List Char) (g : Json) :
    runPipeline dir (some g) = graphEntries dir g := by
  rw [runPipeline, graphEntries]
  cases hm : getFieldMut g keyPackages with
  | none => rfl
  | some pkgs =>
    dsimp only
    rw [emitPkgs_eq]
    cases hr : collectAll ((jsonElems pkgs).map (pkgEntries dir)) with
    | none => rfl
    | some es => simp

/-- C2 counterexample: the code trims no trailing space when the command
has no separator, and keeps a trailing newline even when it has one, so the
normalized command differs from the spec's trim-spaces-and-newlines rule on
both branches. -/
theorem C2_counterexample :
    truncateCmd ("ar x ".toList) ≠ specPreNormalize ("ar x ".toList) ∧
    truncateCmd ("cc y\n && ar".toList) ≠ specPreNormalize ("cc y\n && ar".toList) := by
  decide

/-- C2 (amended): if the command contains the step separator, the
normalized command before placeholder resolution equals the substring
before the first separator occurrence with trailing space characters
removed; otherwise it equals the original command unchanged. -/
theorem C2_amended_truncation (cmd : List Char) :
    ((∀ j, occursAt cmd sepTok j = false) → truncateCmd cmd = cmd) ∧
    (∀ pre post : List Char, cmd = pre ++ (sepTok ++ post) →
      (∀ j, j < pre.length → occursAt cmd sepTok j = false) →
      truncateCmd cmd = rtrimSpaces pre) := by
  constructor
  · intro h
    rw [truncateCmd, findSub_none sepTok cmd h]
  · intro pre post hsplit hfirst
    subst hsplit
    rw [truncateCmd, findSub_at_first sepTok pre post hfirst]
    dsimp only
    rw [List.take_left]

/-- C2 amended witness at a concrete command containing the separator. -/
theorem C2_amended_truncation_witness :
    truncateCmd ("cc a.cc  && ar q".toList) = rtrimSpaces ("cc a.cc ".toList) :=
  (C2_amended_truncation ("cc a.cc  && ar q".toList)).2 ("cc a.cc ".toList) ("ar q".toList)
    rfl (by decide)

/-- C6: a target whose command string does not begin with the compiler
placeholder token contributes no entries to the output, whatever its source
list holds. -/
theorem C6_filtering (dir : List Char) (target : Json) (cmd : List Char) (out : List Entry)
    (hc : (getFieldConst target keyCommand).bind getString = some cmd)
    (h : toolsTok.isPrefixOf cmd = false) :
    emitTarget dir target out = some out := by
  rw [emitTarget]
  by_cases hrel : targetRelevant target
  · simp only [hrel, if_true, hc]
    simp [h]
  · simp [hrel]

/-- C6 witness: a concrete archive-step target is skipped. -/
theorem C6_filtering_witness :
    emitTarget ("/repo".toList) tgtC6 [] = some [] :=
  C6_filtering ("/repo".toList) tgtC6 ("ar out.a out.o".toList) [] (by decide) (by decide)

/-- C4 counterexample: a well-formed object document with no "packages"
field does not abort — the run completes and writes an (empty) artifact. -/
theorem C4_counterexample :
    runPipeline ("/repo".toList) (some (Json.obj [])) = some [] := by
  decide

/-- C4 (amended): a malformed document (parse failure) aborts the run with
nothing written, while a well-formed object document lacking the top-level
"packages" field does not fail: the pipeline emits zero entries and writes
an empty artifact. -/
theorem C4_amended_parse (dir : List Char) (fs : List (List Char × Json))
    (h : lookupField fs keyPackages = none) :
    runPipeline dir none = none ∧ runPipeline dir (some (Json.obj fs)) = some [] := by
  constructor
  · rfl
  · rw [runPipeline]
    rw [getFieldMut]
    simp only [h]
    rfl

/-- C4 amended witness at the empty object document. -/
theorem C4_amended_parse_witness :
    runPipeline ("/repo".toList) none = none ∧
      runPipeline ("/repo".toList) (some (Json.obj [])) = some [] :=
  C4_amended_parse ("/repo".toList) [] rfl

/-- C9: the pipeline is deterministic — the artifact value (whose byte
serialization is a function of it) depends only on the graph document and
the repository root, so two runs over equal inputs agree. -/
theorem C9_deterministic (dir1 dir2 : List Char) (doc1 doc2 : Option Json)
    (hdoc : doc1 = doc2) (hdir : dir1 = dir2) :
    artifact dir1 doc1 = artifact dir2 doc2 := by
  rw [hdoc, hdir]

/-- C9 witness at a concrete document and root. -/
theorem C9_deterministic_witness :
    artifact ("/repo".toList) (some docC1) = artifact ("/repo".toList) (some docC1) :=
  C9_deterministic ("/repo".toList) ("/repo".toList) (some docC1) (some docC1) rfl rfl

/-- C10: classification checks only the raw leading characters: a command
beginning with the placeholder immediately followed by more characters
(here `$TOOLS_CCLD`) is treated as compilable, entries are emitted, and the
embedded token prefix is substituted by the tool path. -/
theorem C10_prefix_not_word :
    runPipeline ("/repo".toList) (some docC10) =
      some [{ directory := "/repo/plz-out/gen".toList,
              command := "/usr/bin/ldLD -c a.cc -o out.o".toList,
              file := "/repo/a.cc".toList }] := by
  decide

/-- C3 counterexample: with the sources placeholder appearing twice in a
compilable target's command, the emitted command still contains the
placeholder token after normalization. -/
theorem C3_counterexample :
    (runPipeline ("/repo".toList) (some docC3)).map
        (fun es => es.map (fun e => containsSub e.command srcsTok)) = some [true] := by
  decide

/-- C5 counterexample: the emitted command substitutes the bare source
string, not the absolute `file` value: normalizing the same template with
the entry's `file` value gives a different command than the one emitted. -/
theorem C5_counterexample :
    (runPipeline ("/repo".toList) (some docC5)).map (fun es => es.map Entry.command) =
        some ["/cc -c a.cc".toList] ∧
      normalizeCmd ("$TOOLS_CC -c ${SRCS_SRCS}".toList) ("/cc".toList) ("/repo/a.cc".toList) ≠
        "/cc -c a.cc".toList := by
  constructor
  · decide
  · decide

/-- C8 counterexample: a graph whose first target looks compilable but has
an empty compiler tool list makes the whole run abort — the following
well-formed target is not processed and no artifact is written, contrary to
the claim that such a target is ignored. -/
theorem C8_counterexample :
    runPipeline ("/repo".toList) (some docC8) = none := by
  decide

/-- Characters of any found substring occurrence are characters of the
searched string. -/
theorem containsSub_subset (pat : List Char) :
    ∀ s : List Char, containsSub s pat = true → ∀ c, c ∈ pat → c ∈ s := by
  intro s
  induction s with
  | nil =>
    intro h c hc
    rw [containsSub.eq_def] at h
    cases hp : pat.isPrefixOf ([] : List Char) with
    | true =>
      have hpat : pat = [] := List.prefix_nil.mp (List.isPrefixOf_iff_prefix.mp hp)
      subst hpat
      cases hc
    | false =>
      rw [hp] at h
      simp at h
  | cons a rest ih =>
    intro h c hc
    rw [containsSub.eq_def] at h
    cases hp : pat.isPrefixOf (a :: rest) with
    | true => exact (List.isPrefixOf_iff_prefix.mp hp).subset hc
    | false =>
      rw [hp] at h
      simp only [Bool.false_eq_true, if_false] at h
      exact List.mem_cons_of_mem a (ih h c hc)

/-- A pattern containing a dollar sign cannot occur in a dollar-free
string. -/
theorem containsSub_false_of_no_dollar (s pat : List Char)
    (hpat : '$' ∈ pat) (hs : '$' ∉ s) : containsSub s pat = false := by
  cases h : containsSub s pat with
  | false => rfl
  | true => exact absurd (containsSub_subset pat s h '$' hpat) hs

/-- An occurrence of a dollar-initial pattern at index `j` puts a dollar at
index `j` of the searched string. -/
theorem occursAt_dollar (s p : List Char) (j : Nat)
    (h : occursAt s ('$' :: p) j = true) : s[j]? = some '$' := by
  unfold occursAt at h
  obtain ⟨tail, htail⟩ := List.isPrefixOf_iff_prefix.mp h
  have hh : (s.drop j).head? = some '$' := by
    rw [← htail]
    rfl
  rwa [List.head?_drop] at hh

/-- The sources placeholder is not a prefix of a string starting with the
two characters of the compiler placeholder. -/
theorem srcsTok_not_prefix_dollar_T (r : List Char) :
    srcsTok.isPrefixOf ('$' :: 'T' :: r) = false := rfl

/-- In a well-formed truncated template `toolsTok ++ m ++ srcsTok ++ t`
with a dollar-free middle `m`, no occurrence of the sources placeholder
starts before the one after `toolsTok ++ m`. -/
theorem srcs_occurrence_position (m t : List Char) (hm : '$' ∉ m) :
    ∀ j, j < (toolsTok ++ m).length →
      occursAt ((toolsTok ++ m) ++ (srcsTok ++ t)) srcsTok j = false := by
  intro j hj
  cases hocc : occursAt ((toolsTok ++ m) ++ (srcsTok ++ t)) srcsTok j with
  | false => rfl
  | true =>
    exfalso
    rcases Nat.eq_zero_or_pos j with hj0 | hjpos
    · subst hj0
      have hshape : (toolsTok ++ m) ++ (srcsTok ++ t) =
          '$' :: 'T' :: (("OOLS_CC".toList ++ m) ++ (srcsTok ++ t)) := rfl
      rw [occursAt, List.drop_zero, hshape, srcsTok_not_prefix_dollar_T] at hocc
      exact Bool.false_ne_true hocc
    · have hs : srcsTok = '$' :: "{SRCS_SRCS}".toList := rfl
      rw [hs] at hocc
      have hdol := occursAt_dollar _ _ j hocc
      rw [List.getElem?_append_left hj] at hdol
      rcases Nat.lt_or_ge j toolsTok.length with hlt | hge
      · rw [List.getElem?_append_left hlt] at hdol
        have h9 : toolsTok.length = 9 := rfl
        rw [h9] at hlt
        interval_cases j
        · exact absurd hdol (by decide)
        · exact absurd hdol (by decide)
        · exact absurd hdol (by decide)
        · exact absurd hdol (by decide)
        · exact absurd hdol (by decide)
        · exact absurd hdol (by decide)
        · exact absurd hdol (by decide)
        · exact absurd hdol (by decide)
      · rw [List.getElem?_append_right hge] at hdol
        exact hm (List.getElem?_mem hdol)

/-- C3 (amended): for a truncated command of the well-formed template shape
`toolsTok ++ middle ++ srcsTok ++ tail` where the middle, the tail, the
substituted source string and the tool path are all dollar-free, the
normalized command contains no occurrence of either placeholder token. -/
theorem C3_amended_no_placeholder (cmd m t src tool : List Char)
    (htr : truncateCmd cmd = (toolsTok ++ m) ++ (srcsTok ++ t))
    (hm : '$' ∉ m) (ht : '$' ∉ t) (hsrc : '$' ∉ src) (htool : '$' ∉ tool) :
    containsSub (normalizeCmd cmd tool src) srcsTok = false ∧
    containsSub (normalizeCmd cmd tool src) toolsTok = false := by
  have h1 : replace (truncateCmd cmd) srcsTok src = (toolsTok ++ m) ++ (src ++ t) := by
    rw [htr]
    exact replace_at_first srcsTok src (toolsTok ++ m) t (srcs_occurrence_position m t hm)
  have h2 : normalizeCmd cmd tool src = tool ++ (m ++ (src ++ t)) := by
    rw [normalizeCmd, h1]
    have hsh : (toolsTok ++ m) ++ (src ++ t) = ([] : List Char) ++ (toolsTok ++ (m ++ (src ++ t))) := by
      simp
    rw [hsh]
    exact replace_at_first toolsTok tool [] (m ++ (src ++ t))
      (fun j hj => absurd hj (Nat.not_lt_zero j))
  have hnod : '$' ∉ tool ++ (m ++ (src ++ t)) := by
    intro hmem
    simp only [List.mem_append] at hmem
    rcases hmem with h | h | h | h
    · exact htool h
    · exact hm h
    · exact hsrc h
    · exact ht h
  rw [h2]
  exact ⟨containsSub_false_of_no_dollar _ srcsTok (by decide) hnod,
         containsSub_false_of_no_dollar _ toolsTok (by decide) hnod⟩

/-- C3 amended witness at a concrete well-formed template. -/
theorem C3_amended_no_placeholder_witness :
    containsSub (normalizeCmd ("$TOOLS_CC -c ${SRCS_SRCS} -o out.o && ar q".toList)
      ("/cc".toList) ("a.cc".toList)) srcsTok = false ∧
    containsSub (normalizeCmd ("$TOOLS_CC -c ${SRCS_SRCS} -o out.o && ar q".toList)
      ("/cc".toList) ("a.cc".toList)) toolsTok = false :=
  C3_amended_no_placeholder ("$TOOLS_CC -c ${SRCS_SRCS} -o out.o && ar q".toList)
    (" -c ".toList) (" -o out.o".toList) ("a.cc".toList) ("/cc".toList)
    (by decide) (by decide) (by decide) (by decide) (by decide)

/-- Collecting string sources with a resolvable tool yields one entry per
source, sharing the truncated template but binding each bare source. -/
theorem collectSrcs_strings (dir trunc : List Char) (target : Json) (tool : List Char)
    (htool : getTool target = some tool) :
    ∀ ss : List (List Char),
      collectSrcs dir trunc target (ss.map Json.str) =
        some (ss.map (fun s =>
          { directory := genDirOf dir,
            command := replace (replace trunc srcsTok s) toolsTok tool,
            file := dir ++ '/' :: s })) := by
  intro ss
  induction ss with
  | nil => rfl
  | cons s rest ih =>
    rw [List.map_cons, collectSrcs]
    simp [processSrc, getString, htool, ih]

/-- C5 (amended): every emitted entry substitutes the bare source string
`s` for the sources placeholder — the entry's command equals
`normalizeCmd cmd tool s`, not the normalization with the absolute `file`
value — while `file` is the repository root joined with `s`. -/
theorem C5_amended_bare_source (dir : List Char) (target : Json) (cmd tool : List Char)
    (sv : Json) (ss : List (List Char)) (out : List Entry)
    (hrel : targetRelevant target = true)
    (hc : (getFieldConst target keyCommand).bind getString = some cmd)
    (hpre : toolsTok.isPrefixOf cmd = true)
    (hs : (getFieldConst target keySrcs).bind (fun sv => getFieldConst sv keySrcs) = some sv)
    (he : jsonElems sv = ss.map Json.str)
    (htool : getTool target = some tool) :
    emitTarget dir target out =
      some (out ++ ss.map (fun s =>
        { directory := genDirOf dir,
          command := normalizeCmd cmd tool s,
          file := dir ++ '/' :: s })) := by
  rw [emitTarget]
  simp only [hrel, if_true, hc, hpre, hs, he]
  rw [emitSrcs_eq, collectSrcs_strings dir (truncateCmd cmd) target tool htool ss]
  simp [normalizeCmd]

/-- C5 amended witness at a concrete compilable target. -/
theorem C5_amended_bare_source_witness :
    emitTarget ("/repo".toList) tgtOk [] =
      some (([] : List Entry) ++ [("b.cc".toList)].map (fun s =>
        { directory := genDirOf ("/repo".toList),
          command := normalizeCmd ("$TOOLS_CC -c ${SRCS_SRCS} -o b.o".toList) ("/cc".toList) s,
          file := ("/repo".toList) ++ '/' :: s })) :=
  C5_amended_bare_source ("/repo".toList) tgtOk ("$TOOLS_CC -c ${SRCS_SRCS} -o b.o".toList)
    ("/cc".toList) (Json.arr [Json.str ("b.cc".toList)]) [("b.cc".toList)] []
    (by decide) (by decide) (by decide) rfl rfl rfl

/-- C8 (amended): a target whose command begins with the compiler token and
whose source list is non-empty, but whose compiler-role tool path does not
resolve (the tools/cc list is absent or empty), makes the run abort at that
target instead of skipping it; no artifact is written. -/
theorem C8_amended_abort (dir : List Char) (target : Json) (cmd : List Char)
    (sv s0 : Json) (rest : List Json) (out : List Entry)
    (hrel : targetRelevant target = true)
    (hc : (getFieldConst target keyCommand).bind getString = some cmd)
    (hpre : toolsTok.isPrefixOf cmd = true)
    (hs : (getFieldConst target keySrcs).bind (fun sv => getFieldConst sv keySrcs) = some sv)
    (he : jsonElems sv = s0 :: rest)
    (htool : getTool target = none) :
    emitTarget dir target out = none := by
  rw [emitTarget]
  simp only [hrel, if_true, hc, hpre, hs, he]
  rw [emitSrcs]
  cases hgs : getString s0 with
  | none => simp [processSrc, hgs]
  | some s => simp [processSrc, hgs, htool]

/-- C8 amended witness: the empty-tool-list target aborts processing. -/
theorem C8_amended_abort_witness :
    emitTarget ("/repo".toList) tgtC8 [] = none :=
  C8_amended_abort ("/repo".toList) tgtC8 ("$TOOLS_CC -c ${SRCS_SRCS} -o out.o".toList)
    (Json.arr [Json.str ("a.cc".toList)]) (Json.str ("a.cc".toList)) [] []
    (by decide) (by decide) (by decide) rfl rfl rfl
